import Mathlib

/-!
Verification of the query engine of an archetype-based entity-component store
(`src/query.rs`).

The development shallowly embeds the query core: the `Access` lattice, the
query-descriptor algebra (leaf reads/writes, `Option`, `With`, `Without`,
tuples), per-archetype `Fetch` cursors, the borrow protocol of `QueryBorrow`,
and the iteration machinery (`ChunkIter`, `QueryIter`, `BatchedIter`/`Batch`).

Component types are modelled as natural numbers, component values as natural
numbers, and column base pointers as the column contents (a pointer is only
ever used via `get(n)`, i.e. `base[n]`).  Rust tuples of descriptors — the
`tuple_impl!` macro instantiates every arity from 0 to 15 — are modelled as a
list of descriptors; each tuple method folds over its members exactly as the
macro expansion does.
-/

set_option autoImplicit false

namespace Hecs

/-- Type of access a query may have to an archetype (`Access` in
`src/query.rs`, declaration order `Iterate < Read < Write` with derived
`Ord`). -/
inductive Access where
  | iterate
  | read
  | write
deriving DecidableEq, Repr

/-- Rank of an `Access` value in its derived total order. -/
def Access.rank : Access → Nat
  | .iterate => 0
  | .read => 1
  | .write => 2

/-- Derived `<=` on `Access` (declaration order). -/
def Access.le (a b : Access) : Bool := a.rank ≤ b.rank

/-- Derived `<` on `Access`. -/
def Access.lt (a b : Access) : Bool := a.rank < b.rank

/-- `Ord::max` on `Access`, as used by the tuple `access` fold. -/
def Access.max (a b : Access) : Access := if Access.le a b then b else a

/-- Derived `<=` on `Option<Access>`: `None` is below everything, `Some` values
compare by the inner order.  This is the ordering Rust derives for
`Option<Access>` and that `QueryBorrow::borrow`/`Drop` use in the test
`access(x) >= Some(Access::Read)`. -/
def optAccessLe : Option Access → Option Access → Bool
  | none, _ => true
  | some _, none => false
  | some a, some b => a.le b

/-- Derived `<` on `Option<Access>`. -/
def optAccessLt : Option Access → Option Access → Bool
  | none, none => false
  | none, some _ => true
  | some _, none => false
  | some a, some b => a.lt b

/-- Modelled from the spec: the archetype collaborator (spec sections 3 and 6;
`src/archetype.rs` is not part of the sources).  An archetype is an ordered
collection of same-shaped entities: an `entities` column of entity ids and one
contiguous column of component values per component type it carries.
`len()` is the row count, i.e. the length of the id column. -/
structure Archetype where
  entities : List Nat
  cols : List (Nat × List Nat)
deriving DecidableEq, Repr

/-- First column associated with a component type in an association list. -/
def colsFind : List (Nat × List Nat) → Nat → Option (List Nat)
  | [], _ => none
  | (t, col) :: rest, u => if t = u then some col else colsFind rest u

/-- Modelled from the spec: `column_ptr(T)` / `Archetype::get::<T>()` — the
base pointer of the `T` column if the archetype carries one. -/
def Archetype.colPtr (a : Archetype) (t : Nat) : Option (List Nat) :=
  colsFind a.cols t

/-- Modelled from the spec: `has(T)` — whether the archetype carries a column
for component type `t`. -/
def Archetype.has (a : Archetype) (t : Nat) : Bool := (a.colPtr t).isSome

/-- Modelled from the spec: `len()` — the archetype's row count. -/
def Archetype.len (a : Archetype) : Nat := a.entities.length

/-- Query descriptor algebra.  In Rust each descriptor is a type implementing
`Query`/`Fetch`; a value of this inductive stands for such a type:
`read t` for `&T`, `write t` for `&mut T`, `opt q` for `Option<Q>`,
`wth t q` for `With<T, Q>`, `without t q` for `Without<T, Q>`, and
`tuple qs` for the tuple of the members. -/
inductive Query where
  | read (t : Nat)
  | write (t : Nat)
  | opt (q : Query)
  | wth (t : Nat) (q : Query)
  | without (t : Nat) (q : Query)
  | tuple (qs : List Query)

/-- Per-archetype materialized cursor (`Fetch` values).  `read`/`write` hold
the column base pointer (`FetchRead`/`FetchWrite`), `tryNone`/`trySome` are
`TryFetch(None)`/`TryFetch(Some(_))`, `fwith`/`fwithout` wrap the sub-fetch of
`FetchWith`/`FetchWithout`, and `tuple` is a tuple of sub-fetches. -/
inductive Fetch where
  | read (col : List Nat)
  | write (col : List Nat)
  | tryNone
  | trySome (f : Fetch)
  | fwith (f : Fetch)
  | fwithout (f : Fetch)
  | tuple (fs : List Fetch)

/-- Item yielded for one row by a fetch: a leaf component view, an optional
view (`Option<Q>`), or a tuple of member items. -/
inductive Item where
  | val (n : Nat)
  | opt (o : Option Item)
  | tup (l : List Item)

mutual
/-- `Fetch::access` of each descriptor (`src/query.rs` lines 80-86, 115-121,
150-152, 200-206, 259-265 and the `tuple_impl!` expansion, lines 600-606).
The tuple case folds `access = access.max(member.access(archetype)?)` over the
members starting from `Access::Iterate`, exactly as the macro does
(`fetchAccessFold`). -/
def fetchAccess : Query → Archetype → Option Access
  | .read t, a => if a.has t then some .read else none
  | .write t, a => if a.has t then some .write else none
  | .opt q, a => some ((fetchAccess q a).getD .iterate)
  | .wth t q, a => if a.has t then fetchAccess q a else none
  | .without t q, a => if a.has t then none else fetchAccess q a
  | .tuple qs, a => fetchAccessFold qs a .iterate
def fetchAccessFold : List Query → Archetype → Access → Option Access
  | [], _, acc => some acc
  | q :: qs, a, acc =>
    match fetchAccess q a with
    | none => none
    | some x => fetchAccessFold qs a (Access.max acc x)
end

mutual
/-- `Fetch::new` of each descriptor: construct the per-archetype cursor if the
archetype should be traversed (`src/query.rs` lines 91-93, 126-128, 157-159,
211-216, 270-275, 612-615).  The tuple case requires every member to
construct. -/
def fetchNew : Query → Archetype → Option Fetch
  | .read t, a => (a.colPtr t).map .read
  | .write t, a => (a.colPtr t).map .write
  | .opt q, a =>
    some (match fetchNew q a with
      | none => .tryNone
      | some f => .trySome f)
  | .wth t q, a => if a.has t then (fetchNew q a).map .fwith else none
  | .without t q, a => if a.has t then none else (fetchNew q a).map .fwithout
  | .tuple qs, a => (fetchNewList qs a).map .tuple
def fetchNewList : List Query → Archetype → Option (List Fetch)
  | [], _ => some []
  | q :: qs, a =>
    match fetchNew q a, fetchNewList qs a with
    | some f, some fs => some (f :: fs)
    | _, _ => none
end

mutual
/-- `Fetch::DANGLING` of each descriptor: a cursor on which `get` is never
called (`src/query.rs` lines 78, 113, 148, 198, 257, 597). -/
def fetchDangling : Query → Fetch
  | .read _ => .read []
  | .write _ => .write []
  | .opt _ => .tryNone
  | .wth _ q => .fwith (fetchDangling q)
  | .without _ q => .fwithout (fetchDangling q)
  | .tuple qs => .tuple (fetchDanglingList qs)
def fetchDanglingList : List Query → List Fetch
  | [] => []
  | q :: qs => fetchDangling q :: fetchDanglingList qs
end

mutual
/-- `Fetch::get(n)`: the item view of row `n` (`src/query.rs` lines 98-100,
133-135, 164-166, 221-223, 280-282, 621-626).  Bounds checking is external;
reading a leaf column is modelled with default `0` out of range. -/
def fetchGet : Fetch → Nat → Item
  | .read col, n => .val (col.getD n 0)
  | .write col, n => .val (col.getD n 0)
  | .tryNone, _ => .opt none
  | .trySome f, n => .opt (some (fetchGet f n))
  | .fwith f, n => fetchGet f n
  | .fwithout f, n => fetchGet f n
  | .tuple fs, n => .tup (fetchGetList fs n)
def fetchGetList : List Fetch → Nat → List Item
  | [], _ => []
  | f :: fs, n => fetchGet f n :: fetchGetList fs n
end

/-- One dynamic-borrow operation on an archetype column: `shared t` stands for
`archetype.borrow::<T>()` / `archetype.release::<T>()`, `excl t` for
`archetype.borrow_mut::<T>()` / `archetype.release_mut::<T>()`. -/
inductive Op where
  | shared (t : Nat)
  | excl (t : Nat)
deriving DecidableEq, Repr

mutual
/-- Column borrow operations performed by `Fetch::borrow` on one archetype
(`src/query.rs` lines 88-90, 123-125, 154-156, 208-210, 267-269, 608-611):
leaf Read takes a shared borrow, leaf Write an exclusive one, composite
descriptors recurse into all members unconditionally. -/
def borrowOps : Query → List Op
  | .read t => [.shared t]
  | .write t => [.excl t]
  | .opt q => borrowOps q
  | .wth _ q => borrowOps q
  | .without _ q => borrowOps q
  | .tuple qs => borrowOpsList qs
def borrowOpsList : List Query → List Op
  | [] => []
  | q :: qs => borrowOps q ++ borrowOpsList qs
end

mutual
/-- Column borrow operations performed by `Fetch::release` on one archetype
(`src/query.rs` lines 94-96, 129-131, 160-162, 217-219, 276-278, 616-619). -/
def releaseOps : Query → List Op
  | .read t => [.shared t]
  | .write t => [.excl t]
  | .opt q => releaseOps q
  | .wth _ q => releaseOps q
  | .without _ q => releaseOps q
  | .tuple qs => releaseOpsList qs
def releaseOpsList : List Query → List Op
  | [] => []
  | q :: qs => releaseOps q ++ releaseOpsList qs
end

/-- Entity handle: a dense id plus the generation read from the
entity-metadata table (`Entity` in the crate). -/
structure Entity where
  id : Nat
  generation : Nat
deriving DecidableEq, Repr

/-- Entity metadata table: the query core only reads `meta[id].generation`,
modelled as a list of generations indexed by entity id. -/
def EntityMeta := List Nat

/-- Construction of the yielded `Entity` from a raw id
(`src/query.rs` lines 461-467 and 579-585). -/
def mkEntity (meta : List Nat) (id : Nat) : Entity :=
  ⟨id, meta.getD id 0⟩

/-- Per-archetype row cursor (`ChunkIter`, `src/query.rs` lines 492-497):
base pointer of the entities column, the materialized fetch, current
position, and length. -/
structure ChunkIter where
  entities : List Nat
  fetch : Fetch
  position : Nat
  len : Nat

/-- The `ChunkIter::EMPTY` sentinel (`src/query.rs` lines 500-506): dangling
pointers and length 0. -/
def ChunkIter.empty (q : Query) : ChunkIter :=
  ⟨[], fetchDangling q, 0, 0⟩

/-- `ChunkIter::next` (`src/query.rs` lines 508-517): end when
`position == len`, otherwise read the entity id and item at `position` and
advance. -/
def chunkNext (c : ChunkIter) : Option ((Nat × Item) × ChunkIter) :=
  if c.position = c.len then
    none
  else
    some ((c.entities.getD c.position 0, fetchGet c.fetch c.position),
      ⟨c.entities, c.fetch, c.position + 1, c.len⟩)

/-- The fresh chunk `QueryIter::next` installs when advancing to `archetype`
(`src/query.rs` lines 451-457): `Q::Fetch::new(archetype).map_or(EMPTY, ...)`. -/
def mkChunk (q : Query) (a : Archetype) : ChunkIter :=
  match fetchNew q a with
  | none => ChunkIter.empty q
  | some f => ⟨a.entities, f, 0, a.len⟩

/-- `QueryIter::next` (`src/query.rs` lines 445-473).  The iterator state is
the suffix of archetypes not yet entered (standing for `archetype_index`)
together with the current chunk.  The inner `loop` is the structural recursion
over that suffix: a chunk item is returned with the generation attached,
otherwise the next archetype (if any) is materialized and the loop re-entered,
so non-matching archetypes are skipped transparently. -/
def qiNext (q : Query) (meta : List Nat) :
    List Archetype → ChunkIter → Option ((Entity × Item) × (List Archetype × ChunkIter))
  | rest, c =>
    match chunkNext c with
    | some ((id, item), c') => some ((mkEntity meta id, item), (rest, c'))
    | none =>
      match rest with
      | [] => none
      | a :: rest' => qiNext q meta rest' (mkChunk q a)

/-- Repeatedly call `qiNext` and collect the yields; `fuel` bounds the number
of items and is chosen large enough by `queryIterList`. -/
def qiDrain (q : Query) (meta : List Nat) :
    Nat → List Archetype → ChunkIter → List (Entity × Item)
  | 0, _, _ => []
  | fuel + 1, rest, c =>
    match qiNext q meta rest c with
    | none => []
    | some (p, (rest', c')) => p :: qiDrain q meta fuel rest' c'

/-- World state as seen by the query core: the entity-metadata table and the
archetype list (`QueryBorrow::new`'s two arguments). -/
structure World where
  meta : List Nat
  archetypes : List Archetype
deriving DecidableEq, Repr

/-- Total number of rows in the world, an upper bound for the number of items
any query yields. -/
def World.rows (w : World) : Nat := (w.archetypes.map Archetype.len).sum

/-- The full sequence of `(Entity, item)` pairs yielded by
`QueryBorrow::iter()`: drain a `QueryIter` whose archetype cursor starts at 0
with the `EMPTY` chunk (`src/query.rs` lines 308-315). -/
def queryIterList (q : Query) (w : World) : List (Entity × Item) :=
  qiDrain q w.meta (w.rows + 1) w.archetypes (ChunkIter.empty q)

/-- `ExactSizeIterator::len` for `QueryIter` (`src/query.rs` lines 481-490):
sum of `archetype.len()` over the archetypes of the underlying borrow whose
`access` is non-`None`.  It reads only the borrow, never the cursor, so its
value is independent of how far the iterator has advanced. -/
def qiLen (q : Query) (w : World) : Nat :=
  ((w.archetypes.filter (fun a => (fetchAccess q a).isSome)).map Archetype.len).sum

/-- Declarative description of what iteration over one archetype yields: if
the descriptor materializes, one pair per row, in ascending row order, the
entity made from the ids column and the item from the fetch; nothing
otherwise. -/
def archYield (q : Query) (meta : List Nat) (a : Archetype) : List (Entity × Item) :=
  match fetchNew q a with
  | none => []
  | some f =>
    (List.range a.len).map (fun i => (mkEntity meta (a.entities.getD i 0), fetchGet f i))

/-- Declarative description of a whole query's yield: archetypes in order,
rows in order, non-applicable archetypes skipped. -/
def iterSpec (q : Query) (w : World) : List (Entity × Item) :=
  (w.archetypes.map (archYield q w.meta)).flatten

/-- `BatchedIter::next` (`src/query.rs` lines 534-564).  The iterator state is
the archetype suffix (standing for `archetype_index`) plus the batch counter
within the current archetype; the inner `loop` is the structural recursion on
the suffix.  With `offset = batch_size * batch`: past the end of the archetype
move on and reset the counter; otherwise, if the fetch materializes, emit the
`Batch` whose chunk covers `[offset, offset + min(batch_size, len - offset))`
and bump the counter; otherwise skip the archetype (counter untouched). -/
def biNext (q : Query) (bs : Nat) :
    List Archetype → Nat → Option (ChunkIter × (List Archetype × Nat))
  | [], _ => none
  | a :: rest, batch =>
    let offset := bs * batch
    if a.len ≤ offset then
      biNext q bs rest 0
    else
      match fetchNew q a with
      | some f =>
        some (⟨a.entities, f, offset, offset + min bs (a.len - offset)⟩, (a :: rest, batch + 1))
      | none => biNext q bs rest batch

/-- Repeatedly call `biNext` and collect the emitted batches (as their
embedded chunks); `fuel` bounds the number of batches. -/
def biDrain (q : Query) (bs : Nat) :
    Nat → List Archetype → Nat → List ChunkIter
  | 0, _, _ => []
  | fuel + 1, rest, batch =>
    match biNext q bs rest batch with
    | none => []
    | some (ch, (rest', batch')) => ch :: biDrain q bs fuel rest' batch'

/-- The batches emitted by `QueryBorrow::iter_batched(bs)` in emission order
(`src/query.rs` lines 320-328): archetype cursor 0, batch counter 0.  With
`bs >= 1` every batch covers at least one row, so `w.rows + 1` units of fuel
are never exhausted. -/
def batchedList (q : Query) (bs : Nat) (w : World) : List ChunkIter :=
  biDrain q bs (w.rows + 1) w.archetypes 0

/-- `Batch::next` repeated to exhaustion (`src/query.rs` lines 577-586): the
embedded chunk is drained and each id is combined with
`meta[id].generation`. -/
def batchDrainGo (meta : List Nat) : Nat → ChunkIter → List (Entity × Item)
  | 0, _ => []
  | fuel + 1, c =>
    match chunkNext c with
    | none => []
    | some ((id, item), c') => (mkEntity meta id, item) :: batchDrainGo meta fuel c'

/-- All pairs a `Batch` yields; its chunk satisfies `position <= len`, so
`len - position` units of fuel are exact. -/
def batchDrain (meta : List Nat) (c : ChunkIter) : List (Entity × Item) :=
  batchDrainGo meta (c.len - c.position) c

/-- Expected batch sizes for one archetype of `l` rows under batch size `k`:
`ceil(l / k)` batches, batch `i` covering `min k (l - k*i)` rows. -/
def batchSizes (k l : Nat) : List Nat :=
  (List.range ((l + k - 1) / k)).map (fun i => min k (l - k * i))

/-- Dynamic borrow state of one archetype column: number of live shared
borrows and whether an exclusive borrow is live.  Modelled from the spec
(section 3): per-column counters enforcing multi-reader-or-single-writer. -/
structure ColState where
  readers : Nat
  writer : Bool
deriving DecidableEq, Repr

/-- Column state with no live borrows. -/
def ColState.free : ColState := ⟨0, false⟩

/-- Modelled from the spec: `borrow(T)` — acquire a shared borrow, refused
(panic) when a conflicting exclusive borrow is live. -/
def colBorrowShared (s : ColState) : Option ColState :=
  if s.writer then none else some ⟨s.readers + 1, s.writer⟩

/-- Modelled from the spec: `borrow_mut(T)` — acquire an exclusive borrow,
refused (panic) when any other borrow is live. -/
def colBorrowExcl (s : ColState) : Option ColState :=
  if s.writer || 0 < s.readers then none else some ⟨s.readers, true⟩

/-- Modelled from the spec: `release(T)` / `release_mut(T)` — drop a shared
or exclusive borrow (an unmatched release is outside the contract). -/
def colRelease (s : ColState) : Op → ColState
  | .shared _ => ⟨s.readers - 1, s.writer⟩
  | .excl _ => ⟨s.readers, false⟩

/-- Borrow state of one archetype: a column state per component type. -/
def ArchBorrows := Nat → ColState

/-- Archetype borrow state with no live borrows. -/
def ArchBorrows.free : ArchBorrows := fun _ => ColState.free

/-- Apply one acquisition to an archetype's borrow state; `none` is the
panic of a refused borrow. -/
def archApplyOp (s : ArchBorrows) : Op → Option ArchBorrows
  | .shared t => (colBorrowShared (s t)).map (fun c => Function.update s t c)
  | .excl t => (colBorrowExcl (s t)).map (fun c => Function.update s t c)

/-- Run `Fetch::borrow`'s column operations left to right on one archetype.
Returns the final state, the operations actually performed, and whether all
succeeded; on a refusal the operations already performed stay applied (the
panic unwinds without undoing them). -/
def archAcquire : List Op → ArchBorrows → ArchBorrows × List Op × Bool
  | [], s => (s, [], true)
  | op :: ops, s =>
    match archApplyOp s op with
    | none => (s, [], false)
    | some s' =>
      let r := archAcquire ops s'
      (r.1, op :: r.2.1, r.2.2)

/-- Point update of one column by a release operation. -/
def colReleaseAt (s : ArchBorrows) (op : Op) : ArchBorrows :=
  match op with
  | .shared t => Function.update s t (colRelease (s t) (.shared t))
  | .excl t => Function.update s t (colRelease (s t) (.excl t))

/-- Run `Fetch::release`'s column operations on one archetype. -/
def archDoRelease : List Op → ArchBorrows → ArchBorrows
  | [], s => s
  | op :: ops, s => archDoRelease ops (colReleaseAt s op)

/-- Gate of the borrow walk (`src/query.rs` lines 338 and 414):
`Q::Fetch::access(x) >= Some(Access::Read)`. -/
def accessGate (q : Query) (a : Archetype) : Bool :=
  optAccessLe (some .read) (fetchAccess q a)

/-- A borrow of a world sufficient to execute a query (`QueryBorrow`,
`src/query.rs` lines 288-293): the metadata table, the archetype list, the
one-shot `borrowed` flag, and the descriptor `Q` (a type parameter in Rust,
carried as a value here). -/
structure QueryBorrow where
  meta : List Nat
  archetypes : List Archetype
  borrowed : Bool
  q : Query

/-- `QueryBorrow::new` (`src/query.rs` lines 296-303). -/
def QueryBorrow.mk' (q : Query) (w : World) : QueryBorrow :=
  ⟨w.meta, w.archetypes, false, q⟩

/-- The archetype walk of `QueryBorrow::borrow` (`src/query.rs` lines
336-341): for every archetype, in order, whose access is at least
`Some(Read)`, invoke `Q::Fetch::borrow`.  Each archetype's borrow state is
carried alongside it; the result is the per-archetype states after the walk,
the column operations performed (paired with their archetype), and whether
every acquisition succeeded.  When an acquisition is refused the walk stops:
the refusing archetype keeps its partial acquisitions, later archetypes stay
untouched, and nothing acquired earlier is undone. -/
def qbWalk (q : Query) : List (Archetype × ArchBorrows) →
    List ArchBorrows × List (Archetype × Op) × Bool
  | [] => ([], [], true)
  | (a, s) :: rest =>
    if accessGate q a then
      let r := archAcquire (borrowOps q) s
      if r.2.2 then
        let w := qbWalk q rest
        (r.1 :: w.1, r.2.1.map (fun op => (a, op)) ++ w.2.1, w.2.2)
      else
        (r.1 :: rest.map Prod.snd, r.2.1.map (fun op => (a, op)), false)
    else
      let w := qbWalk q rest
      (s :: w.1, w.2.1, w.2.2)

/-- The diagnostic of the double-iteration panic (`src/query.rs` lines
332-334). -/
def doubleIterMsg : String :=
  "called QueryBorrow::iter twice on the same borrow; construct a new query instead"

/-- Stand-in for the diagnostic of a refused column borrow; the text is owned
by the archetype collaborator (modelled from the spec, section 7). -/
def borrowRefusedMsg : String := "column already borrowed"

/-- Result of running `QueryBorrow::borrow`: the handle afterwards, the
per-archetype borrow states, the performed column operations, and the panic
diagnostic if any. -/
structure BorrowOutcome where
  handle : QueryBorrow
  states : List ArchBorrows
  trace : List (Archetype × Op)
  failMsg : Option String

/-- `QueryBorrow::borrow` (`src/query.rs` lines 330-343): panic if already
borrowed; otherwise walk every archetype acquiring borrows where the access
gate holds, and set `borrowed` only after the whole walk has completed —
if the walk panics partway, the flag stays `false`. -/
def qbBorrow (qb : QueryBorrow) (sts : List ArchBorrows) : BorrowOutcome :=
  if qb.borrowed then
    ⟨qb, sts, [], some doubleIterMsg⟩
  else
    let r := qbWalk qb.q (qb.archetypes.zip sts)
    if r.2.2 then
      ⟨⟨qb.meta, qb.archetypes, true, qb.q⟩, r.1, r.2.1, none⟩
    else
      ⟨qb, r.1, r.2.1, some borrowRefusedMsg⟩

/-- `QueryBorrow::iter` (`src/query.rs` lines 308-315): acquire the borrows,
then hand out a `QueryIter` whose archetype cursor starts at 0 with the
`EMPTY` chunk. -/
def qbIter (qb : QueryBorrow) (sts : List ArchBorrows) :
    BorrowOutcome × (List Archetype × ChunkIter) :=
  (qbBorrow qb sts, (qb.archetypes, ChunkIter.empty qb.q))

/-- `QueryBorrow::iter_batched` (`src/query.rs` lines 320-328): same borrow
semantics, handing out a `BatchedIter` with archetype cursor 0 and batch
counter 0. -/
def qbIterBatched (qb : QueryBorrow) (bs : Nat) (sts : List ArchBorrows) :
    BorrowOutcome × (List Archetype × Nat × Nat) :=
  (qbBorrow qb sts, (qb.archetypes, bs, 0))

/-- The archetype walk of `Drop for QueryBorrow` (`src/query.rs` lines
413-417): for every archetype whose access is at least `Some(Read)`, invoke
`Q::Fetch::release`.  Returns the states afterwards and the performed
operations. -/
def qbReleaseWalk (q : Query) : List (Archetype × ArchBorrows) →
    List ArchBorrows × List (Archetype × Op)
  | [] => ([], [])
  | (a, s) :: rest =>
    let w := qbReleaseWalk q rest
    if accessGate q a then
      (archDoRelease (releaseOps q) s :: w.1,
        (releaseOps q).map (fun op => (a, op)) ++ w.2)
    else
      (s :: w.1, w.2)

/-- `Drop for QueryBorrow` (`src/query.rs` lines 410-419): release on every
gated archetype if `borrowed`, otherwise do nothing. -/
def qbDrop (qb : QueryBorrow) (sts : List ArchBorrows) :
    List ArchBorrows × List (Archetype × Op) :=
  if qb.borrowed then qbReleaseWalk qb.q (qb.archetypes.zip sts)
  else (sts, [])

/-- `QueryBorrow::transform` (`src/query.rs` lines 394-404): produce a handle
of the new descriptor type preserving `meta`, `archetypes` and `borrowed`,
and neutralize the source handle (`borrowed := false`) so its destructor
will not fire redundantly.  Returns `(new handle, neutralized source)`. -/
def qbTransform (r : Query) (qb : QueryBorrow) : QueryBorrow × QueryBorrow :=
  (⟨qb.meta, qb.archetypes, qb.borrowed, r⟩, ⟨qb.meta, qb.archetypes, false, qb.q⟩)

/-- `QueryBorrow::with::<T>` (`src/query.rs` lines 367-369). -/
def qbWith (t : Nat) (qb : QueryBorrow) : QueryBorrow × QueryBorrow :=
  qbTransform (.wth t qb.q) qb

/-- `QueryBorrow::without::<T>` (`src/query.rs` lines 389-391). -/
def qbWithout (t : Nat) (qb : QueryBorrow) : QueryBorrow × QueryBorrow :=
  qbTransform (.without t qb.q) qb

/-- The items a handle's `QueryIter` yields, as a function of the handle
(used to compare transformed handles with directly constructed ones). -/
def qbIterList (qb : QueryBorrow) : List (Entity × Item) :=
  qiDrain qb.q qb.meta ((qb.archetypes.map Archetype.len).sum + 1) qb.archetypes
    (ChunkIter.empty qb.q)

/-- Pairs still to be yielded from a chunk: rows `position` to `len - 1`
in ascending order, each id combined with its generation. -/
def chunkYield (meta : List Nat) (c : ChunkIter) : List (Entity × Item) :=
  (List.range (c.len - c.position)).map
    (fun i => (mkEntity meta (c.entities.getD (c.position + i) 0),
      fetchGet c.fetch (c.position + i)))

/-- A chunk advanced to its end. -/
def ChunkIter.exhausted (c : ChunkIter) : ChunkIter :=
  ⟨c.entities, c.fetch, c.len, c.len⟩

/-- Batches `BatchedIter` is expected to emit for one archetype: none if the
fetch does not materialize, otherwise `ceil(len / bs)` chunks, the `i`-th
covering rows `[bs*i, bs*i + min bs (len - bs*i))`. -/
def expBatches (q : Query) (bs : Nat) (a : Archetype) : List ChunkIter :=
  match fetchNew q a with
  | none => []
  | some f =>
    (List.range ((a.len + bs - 1) / bs)).map
      (fun i => ⟨a.entities, f, bs * i, bs * i + min bs (a.len - bs * i)⟩)

/-- Tuple access under the assumption that every member matches: the fold of
`Access.max` over the members' accesses, starting from `Access::Iterate`. -/
def maxAccess (qs : List Query) (a : Archetype) : Access :=
  qs.foldl (fun acc q => Access.max acc ((fetchAccess q a).getD .iterate)) .iterate

/-- Column operations of a whole borrow (or release) walk, paired with their
archetypes: every archetype passing the access gate contributes `ops`, in
archetype order. -/
def walkTrace (q : Query) (archs : List Archetype) (ops : List Op) :
    List (Archetype × Op) :=
  ((archs.filter (accessGate q)).map (fun a => ops.map (fun op => (a, op)))).flatten

/-- Tail of `expBatches` from batch counter `b` on. -/
def expBatchesFrom (_q : Query) (bs : Nat) (a : Archetype) (fv : Fetch) (b : Nat) :
    List ChunkIter :=
  (List.range ((a.len + bs - 1) / bs - b)).map
    (fun i => ⟨a.entities, fv, bs * (b + i), bs * (b + i) + min bs (a.len - bs * (b + i))⟩)

/-- Example archetype: two rows carrying component 0. -/
def arch1 : Archetype := ⟨[0, 1], [(0, [10, 20])]⟩

/-- Example archetype: five rows carrying component 0. -/
def arch5 : Archetype := ⟨[0, 1, 2, 3, 4], [(0, [10, 20, 30, 40, 50])]⟩

/-- Example world: two entities in one archetype carrying component 0. -/
def world1 : World := ⟨[9, 8], [arch1]⟩

/-- Example world: five entities in one archetype carrying component 0. -/
def world5 : World := ⟨[1, 1, 1, 1, 1], [arch5]⟩

mutual
/-- Applicability agreement: a descriptor's `access` answers `Some` on an
archetype exactly when its `new` does. -/
theorem fetchAccess_isSome (q : Query) (a : Archetype) :
    (fetchAccess q a).isSome = (fetchNew q a).isSome :=
  match q with
  | .read t => by
    cases h : a.colPtr t <;>
      simp [fetchAccess, fetchNew, Archetype.has, h]
  | .write t => by
    cases h : a.colPtr t <;>
      simp [fetchAccess, fetchNew, Archetype.has, h]
  | .opt p => by
    simp [fetchAccess, fetchNew]
  | .wth t p => by
    cases h : a.has t <;>
      simp [fetchAccess, fetchNew, h, fetchAccess_isSome p a]
  | .without t p => by
    cases h : a.has t <;>
      simp [fetchAccess, fetchNew, h, fetchAccess_isSome p a]
  | .tuple qs => by
    simp [fetchAccess, fetchNew, fetchAccessFold_isSome qs a .iterate]
/-- Applicability agreement for the members of a tuple, for any fold
accumulator. -/
theorem fetchAccessFold_isSome (qs : List Query) (a : Archetype) (acc : Access) :
    (fetchAccessFold qs a acc).isSome = (fetchNewList qs a).isSome :=
  match qs with
  | [] => by simp [fetchAccessFold, fetchNewList]
  | q :: rest => by
    have hq := fetchAccess_isSome q a
    cases h1 : fetchAccess q a with
    | none =>
      cases h2 : fetchNew q a with
      | none => simp [fetchAccessFold, fetchNewList, h1, h2]
      | some f => rw [h1, h2] at hq; simp at hq
    | some x =>
      cases h2 : fetchNew q a with
      | none => rw [h1, h2] at hq; simp at hq
      | some f =>
        have hrest := fetchAccessFold_isSome rest a (Access.max acc x)
        cases h3 : fetchNewList rest a with
        | none => simp [fetchAccessFold, fetchNewList, h1, h2, h3, h3 ▸ hrest]
        | some fs => simp [fetchAccessFold, fetchNewList, h1, h2, h3, h3 ▸ hrest]
end

theorem chunkNext_of_eq {c : ChunkIter} (h : c.position = c.len) :
    chunkNext c = none := by
  simp [chunkNext, h]

theorem chunkNext_of_lt {c : ChunkIter} (h : c.position < c.len) :
    chunkNext c = some ((c.entities.getD c.position 0, fetchGet c.fetch c.position),
      ⟨c.entities, c.fetch, c.position + 1, c.len⟩) := by
  simp only [chunkNext, if_neg (Nat.ne_of_lt h)]

theorem chunkYield_of_eq {c : ChunkIter} (meta : List Nat) (h : c.position = c.len) :
    chunkYield meta c = [] := by
  simp [chunkYield, h]

theorem chunkYield_step {c : ChunkIter} (meta : List Nat) (h : c.position < c.len) :
    chunkYield meta c
      = (mkEntity meta (c.entities.getD c.position 0), fetchGet c.fetch c.position)
        :: chunkYield meta ⟨c.entities, c.fetch, c.position + 1, c.len⟩ := by
  have hn : c.len - c.position = (c.len - (c.position + 1)) + 1 := by omega
  simp only [chunkYield, hn, List.range_succ_eq_map, List.map_cons, List.map_map,
    Nat.add_zero]
  congr 1
  apply List.map_congr_left
  intro i _
  have hpi : c.position + Nat.succ i = c.position + 1 + i := by omega
  simp [Function.comp, hpi]

theorem qiDrain_zero (q : Query) (meta : List Nat) (rest : List Archetype)
    (c : ChunkIter) : qiDrain q meta 0 rest c = [] := rfl

theorem qiDrain_succ (q : Query) (meta : List Nat) (f : Nat) (rest : List Archetype)
    (c : ChunkIter) :
    qiDrain q meta (f + 1) rest c
      = match qiNext q meta rest c with
        | none => []
        | some (p, (rest', c')) => p :: qiDrain q meta f rest' c' := rfl

theorem qiNext_advance (q : Query) (meta : List Nat) (a : Archetype)
    (rest : List Archetype) {c : ChunkIter} (h : chunkNext c = none) :
    qiNext q meta (a :: rest) c = qiNext q meta rest (mkChunk q a) := by
  rw [qiNext, h]

theorem qiNext_nil (q : Query) (meta : List Nat) {c : ChunkIter}
    (h : chunkNext c = none) : qiNext q meta [] c = none := by
  rw [qiNext, h]

theorem qiNext_yield (q : Query) (meta : List Nat) (rest : List Archetype)
    {c : ChunkIter} (h : c.position < c.len) :
    qiNext q meta rest c
      = some ((mkEntity meta (c.entities.getD c.position 0), fetchGet c.fetch c.position),
          (rest, ⟨c.entities, c.fetch, c.position + 1, c.len⟩)) := by
  cases rest with
  | nil => rw [qiNext, chunkNext_of_lt h]
  | cons a rest => rw [qiNext, chunkNext_of_lt h]

theorem qiDrain_advance (q : Query) (meta : List Nat) (f : Nat) (a : Archetype)
    (rest : List Archetype) {c : ChunkIter} (h : chunkNext c = none) :
    qiDrain q meta f (a :: rest) c = qiDrain q meta f rest (mkChunk q a) := by
  cases f with
  | zero => rfl
  | succ f => rw [qiDrain_succ, qiDrain_succ, qiNext_advance q meta a rest h]

theorem qiDrain_nil (q : Query) (meta : List Nat) (f : Nat) {c : ChunkIter}
    (h : c.position = c.len) : qiDrain q meta f [] c = [] := by
  cases f with
  | zero => rfl
  | succ f => rw [qiDrain_succ, qiNext_nil q meta (chunkNext_of_eq h)]

/-- Draining first consumes the current chunk row by row, then continues with
the chunk advanced to its end. -/
theorem qiDrain_chunk (q : Query) (meta : List Nat) :
    ∀ (n : Nat) (rest : List Archetype) (c : ChunkIter) (f : Nat),
      c.len = c.position + n → n ≤ f →
      qiDrain q meta f rest c
        = chunkYield meta c ++ qiDrain q meta (f - n) rest c.exhausted := by
  intro n
  induction n with
  | zero =>
    intro rest c f h _
    have hpl : c.position = c.len := by omega
    have hex : c.exhausted = c := by
      obtain ⟨e, fv, p, l⟩ := c
      simp only at hpl
      simp [ChunkIter.exhausted, hpl]
    rw [chunkYield_of_eq meta hpl, hex, Nat.sub_zero, List.nil_append]
  | succ n ih =>
    intro rest c f h hf
    have hlt : c.position < c.len := by omega
    obtain ⟨f, rfl⟩ : ∃ g, f = g + 1 := ⟨f - 1, by omega⟩
    rw [qiDrain_succ, qiNext_yield q meta rest hlt, chunkYield_step meta hlt,
      List.cons_append]
    show (mkEntity meta (c.entities.getD c.position 0), fetchGet c.fetch c.position)
        :: qiDrain q meta f rest ⟨c.entities, c.fetch, c.position + 1, c.len⟩ = _
    congr 1
    have ih' := ih rest ⟨c.entities, c.fetch, c.position + 1, c.len⟩ f
      (by simp only; omega) (by omega)
    rw [show f + 1 - (n + 1) = f - n by omega]
    exact ih'

/-- Draining from an exhausted chunk with enough fuel yields, archetype by
archetype, exactly the declarative description. -/
theorem qiDrain_spec (q : Query) (meta : List Nat) :
    ∀ (rest : List Archetype) (f : Nat) (c : ChunkIter),
      c.position = c.len →
      ((rest.map (archYield q meta)).flatten).length ≤ f →
      qiDrain q meta f rest c = (rest.map (archYield q meta)).flatten := by
  intro rest
  induction rest with
  | nil =>
    intro f c h _
    simp [qiDrain_nil q meta f h]
  | cons a rest ih =>
    intro f c h hf
    rw [qiDrain_advance q meta f a rest (chunkNext_of_eq h)]
    simp only [List.map_cons, List.flatten_cons, List.length_append] at hf ⊢
    cases hnew : fetchNew q a with
    | none =>
      rw [show mkChunk q a = ChunkIter.empty q by rw [mkChunk, hnew]]
      rw [ih f (ChunkIter.empty q) rfl (by omega)]
      simp [archYield, hnew]
    | some fv =>
      rw [show mkChunk q a = ⟨a.entities, fv, 0, a.len⟩ by rw [mkChunk, hnew]]
      have hlen : (archYield q meta a).length = a.len := by
        simp [archYield, hnew]
      rw [qiDrain_chunk q meta a.len rest ⟨a.entities, fv, 0, a.len⟩ f (by simp) (by omega)]
      have hcy : chunkYield meta ⟨a.entities, fv, 0, a.len⟩ = archYield q meta a := by
        simp [chunkYield, archYield, hnew]
      rw [hcy, ih (f - a.len) _ rfl (by omega)]

theorem archYield_length_le (q : Query) (meta : List Nat) (a : Archetype) :
    (archYield q meta a).length ≤ a.len := by
  cases h : fetchNew q a <;> simp [archYield, h]

theorem iterSpec_length_le (q : Query) (w : World) :
    (iterSpec q w).length ≤ w.rows := by
  rw [iterSpec, List.length_flatten, World.rows, List.map_map]
  apply List.sum_le_sum
  intro a _
  exact archYield_length_le q w.meta a

theorem queryIterList_eq (q : Query) (w : World) :
    queryIterList q w = iterSpec q w := by
  rw [queryIterList, iterSpec]
  exact qiDrain_spec q w.meta w.archetypes (w.rows + 1) (ChunkIter.empty q) rfl
    (Nat.le_trans (iterSpec_length_le q w) (Nat.le_succ _))

/-- C1.  For every query and world, `QueryBorrow::iter` yields exactly one
`(Entity, item)` pair per row of each archetype on which the descriptor's
fetch materializes (`new` answers `Some`), in archetype order and in
ascending row order within an archetype, with non-applicable archetypes
skipped transparently — i.e. the iterator's full yield equals the
declarative, per-archetype description `iterSpec`. -/
theorem queryIter_complete (q : Query) (w : World) :
    queryIterList q w = iterSpec q w :=
  queryIterList_eq q w

theorem iterSpec_length (q : Query) (w : World) :
    (iterSpec q w).length = qiLen q w := by
  rw [iterSpec, List.length_flatten, qiLen, List.map_map]
  induction w.archetypes with
  | nil => rfl
  | cons a rest ih =>
    rw [List.map_cons, List.sum_cons, ih, List.filter_cons]
    have hlen : (archYield q w.meta a).length
        = if (fetchAccess q a).isSome then a.len else 0 := by
      rw [fetchAccess_isSome]
      cases h : fetchNew q a <;> simp [archYield, h]
    cases hacc : (fetchAccess q a).isSome <;>
      simp [hlen, hacc]

/-- C2 (counterexample).  `QueryIter::len` does not track consumption: on a
world with one applicable archetype of two rows, one `next` step reaches the
state with a single item left, yet `len` still answers 2. -/
theorem queryIter_len_stale :
    qiLen (.read 0) world1 = 2
    ∧ qiNext (.read 0) world1.meta world1.archetypes (ChunkIter.empty (.read 0))
        = some ((⟨0, 9⟩, .val 10), ([], ⟨[0, 1], .read [10, 20], 1, 2⟩))
    ∧ (qiDrain (.read 0) world1.meta 3 [] ⟨[0, 1], .read [10, 20], 1, 2⟩).length = 1 :=
  ⟨rfl, rfl, rfl⟩

/-- C2 (amended).  `QueryIter::len` returns the sum of `archetype.len()` over
the archetypes whose access is non-`None`, independently of how far the
iterator has advanced; before any consumption this equals the number of items
the iterator will produce. -/
theorem queryIter_len_exact (q : Query) (w : World) :
    qiLen q w = (queryIterList q w).length := by
  rw [queryIterList_eq, iterSpec_length]

theorem biDrain_zero (q : Query) (bs : Nat) (rest : List Archetype) (b : Nat) :
    biDrain q bs 0 rest b = [] := rfl

theorem biDrain_succ (q : Query) (bs f : Nat) (rest : List Archetype) (b : Nat) :
    biDrain q bs (f + 1) rest b
      = match biNext q bs rest b with
        | none => []
        | some (ch, (rest', b')) => ch :: biDrain q bs f rest' b' := rfl

theorem biNext_nil (q : Query) (bs b : Nat) : biNext q bs [] b = none := rfl

theorem biNext_skip_full (q : Query) (bs b : Nat) {a : Archetype}
    (rest : List Archetype) (h : a.len ≤ bs * b) :
    biNext q bs (a :: rest) b = biNext q bs rest 0 := by
  rw [biNext]
  simp [h]

theorem biNext_emit (q : Query) (bs b : Nat) {a : Archetype} {fv : Fetch}
    (rest : List Archetype) (hlt : bs * b < a.len) (hnew : fetchNew q a = some fv) :
    biNext q bs (a :: rest) b
      = some (⟨a.entities, fv, bs * b, bs * b + min bs (a.len - bs * b)⟩,
          (a :: rest, b + 1)) := by
  rw [biNext]
  simp [Nat.not_le.mpr hlt, hnew]

theorem biNext_skip_nofetch (q : Query) (bs b : Nat) {a : Archetype}
    (rest : List Archetype) (hlt : bs * b < a.len) (hnew : fetchNew q a = none) :
    biNext q bs (a :: rest) b = biNext q bs rest b := by
  rw [biNext]
  simp [Nat.not_le.mpr hlt, hnew]

theorem biDrain_skip_full (q : Query) (bs f b : Nat) {a : Archetype}
    (rest : List Archetype) (h : a.len ≤ bs * b) :
    biDrain q bs f (a :: rest) b = biDrain q bs f rest 0 := by
  cases f with
  | zero => rfl
  | succ f => rw [biDrain_succ, biDrain_succ, biNext_skip_full q bs b rest h]

theorem biDrain_skip_nofetch (q : Query) (bs f b : Nat) {a : Archetype}
    (rest : List Archetype) (hlt : bs * b < a.len) (hnew : fetchNew q a = none) :
    biDrain q bs f (a :: rest) b = biDrain q bs f rest b := by
  cases f with
  | zero => rfl
  | succ f => rw [biDrain_succ, biDrain_succ, biNext_skip_nofetch q bs b rest hlt hnew]

theorem biDrain_nil (q : Query) (bs f b : Nat) : biDrain q bs f [] b = [] := by
  cases f with
  | zero => rfl
  | succ f => rw [biDrain_succ, biNext_nil]

theorem numBatches_le (bs b l : Nat) (hk : 1 ≤ bs) (h : l ≤ bs * b) :
    (l + bs - 1) / bs ≤ b := by
  rw [← Nat.lt_succ_iff, Nat.div_lt_iff_lt_mul hk]
  have h1 : Nat.succ b * bs = b * bs + bs := Nat.succ_mul b bs
  have h2 : b * bs = bs * b := Nat.mul_comm b bs
  omega

theorem lt_numBatches (bs b l : Nat) (hk : 1 ≤ bs) (h : bs * b < l) :
    b < (l + bs - 1) / bs := by
  rw [← Nat.succ_le, Nat.le_div_iff_mul_le hk]
  have h1 : Nat.succ b * bs = b * bs + bs := Nat.succ_mul b bs
  have h2 : b * bs = bs * b := Nat.mul_comm b bs
  omega

theorem expBatchesFrom_stop (q : Query) (bs : Nat) (a : Archetype) (fv : Fetch)
    (b : Nat) (h : (a.len + bs - 1) / bs ≤ b) :
    expBatchesFrom q bs a fv b = [] := by
  rw [expBatchesFrom, Nat.sub_eq_zero_of_le h]
  rfl

theorem expBatchesFrom_step (q : Query) (bs : Nat) (a : Archetype) (fv : Fetch)
    (b : Nat) (h : b < (a.len + bs - 1) / bs) :
    expBatchesFrom q bs a fv b
      = ⟨a.entities, fv, bs * b, bs * b + min bs (a.len - bs * b)⟩
        :: expBatchesFrom q bs a fv (b + 1) := by
  have hn : (a.len + bs - 1) / bs - b = ((a.len + bs - 1) / bs - (b + 1)) + 1 := by omega
  simp only [expBatchesFrom, hn, List.range_succ_eq_map, List.map_cons, List.map_map,
    Nat.add_zero]
  congr 1
  apply List.map_congr_left
  intro i _
  have hbi : b + Nat.succ i = b + 1 + i := by omega
  simp [Function.comp, hbi]

theorem expBatchesFrom_zero (q : Query) (bs : Nat) {a : Archetype} {fv : Fetch}
    (hnew : fetchNew q a = some fv) :
    expBatchesFrom q bs a fv 0 = expBatches q bs a := by
  simp [expBatchesFrom, expBatches, hnew]

/-- Batches drained from the middle of one archetype: from batch counter `b`
on, the emitted chunks are exactly the expected ones, after which the drain
continues with the remaining archetypes. -/
theorem biDrain_arch (q : Query) (bs : Nat) (hk : 1 ≤ bs) (a : Archetype)
    (rest : List Archetype) (fv : Fetch) (hnew : fetchNew q a = some fv)
    (hrest : ∀ f, (rest.map Archetype.len).sum ≤ f →
      biDrain q bs f rest 0 = (rest.map (expBatches q bs)).flatten) :
    ∀ (m b f : Nat), a.len - bs * b ≤ m →
      (a.len - bs * b) + (rest.map Archetype.len).sum ≤ f →
      biDrain q bs f (a :: rest) b
        = expBatchesFrom q bs a fv b ++ (rest.map (expBatches q bs)).flatten := by
  intro m
  induction m with
  | zero =>
    intro b f hm hf
    have hle : a.len ≤ bs * b := by omega
    rw [biDrain_skip_full q bs f b rest hle,
      expBatchesFrom_stop q bs a fv b (numBatches_le bs b a.len hk hle),
      List.nil_append]
    exact hrest f (by omega)
  | succ m ih =>
    intro b f hm hf
    rcases Nat.lt_or_ge (bs * b) a.len with hlt | hge
    · have hmul : bs * (b + 1) = bs * b + bs := Nat.mul_succ bs b
      obtain ⟨f, rfl⟩ : ∃ g, f = g + 1 := ⟨f - 1, by omega⟩
      rw [biDrain_succ, biNext_emit q bs b rest hlt hnew,
        expBatchesFrom_step q bs a fv b (lt_numBatches bs b a.len hk hlt),
        List.cons_append]
      show _ :: biDrain q bs f (a :: rest) (b + 1) = _
      congr 1
      exact ih (b + 1) f (by omega) (by omega)
    · have hle : a.len ≤ bs * b := hge
      rw [biDrain_skip_full q bs f b rest hle,
        expBatchesFrom_stop q bs a fv b (numBatches_le bs b a.len hk hle),
        List.nil_append]
      exact hrest f (by omega)

/-- The batches `iter_batched` emits are, archetype by archetype, exactly the
expected partition into `ceil(len / bs)` chunks. -/
theorem biDrain_all (q : Query) (bs : Nat) (hk : 1 ≤ bs) :
    ∀ (archs : List Archetype) (f : Nat), (archs.map Archetype.len).sum ≤ f →
      biDrain q bs f archs 0 = (archs.map (expBatches q bs)).flatten := by
  intro archs
  induction archs with
  | nil =>
    intro f _
    simp [biDrain_nil]
  | cons a rest ih =>
    intro f hf
    simp only [List.map_cons, List.sum_cons] at hf
    rcases Nat.eq_zero_or_pos a.len with hz | hpos
    · rw [biDrain_skip_full q bs f 0 rest (by omega)]
      rw [ih f (by omega)]
      have : expBatches q bs a = [] := by
        cases hnew : fetchNew q a with
        | none => rw [expBatches, hnew]
        | some fv =>
          rw [expBatches, hnew]
          have : (a.len + bs - 1) / bs = 0 := by
            apply Nat.div_eq_of_lt
            omega
          rw [this]
          rfl
      rw [List.map_cons, List.flatten_cons, this, List.nil_append]
    · cases hnew : fetchNew q a with
      | none =>
        rw [biDrain_skip_nofetch q bs f 0 rest (by omega) hnew, ih f (by omega)]
        rw [List.map_cons, List.flatten_cons, show expBatches q bs a = [] by
          rw [expBatches, hnew], List.nil_append]
      | some fv =>
        rw [List.map_cons, List.flatten_cons, ← expBatchesFrom_zero q bs hnew]
        exact biDrain_arch q bs hk a rest fv hnew ih a.len 0 f (by omega) (by omega)

theorem batchedList_eq (q : Query) (bs : Nat) (w : World) (hk : 1 ≤ bs) :
    batchedList q bs w = (w.archetypes.map (expBatches q bs)).flatten := by
  rw [batchedList]
  exact biDrain_all q bs hk w.archetypes (w.rows + 1) (Nat.le_succ_of_le (Nat.le_refl _))

theorem batchDrainGo_eq_chunkYield (meta : List Nat) :
    ∀ (n : Nat) (c : ChunkIter), c.len = c.position + n →
      batchDrainGo meta n c = chunkYield meta c := by
  intro n
  induction n with
  | zero =>
    intro c h
    rw [batchDrainGo, chunkYield_of_eq meta (by omega)]
  | succ n ih =>
    intro c h
    have hlt : c.position < c.len := by omega
    rw [batchDrainGo, chunkNext_of_lt hlt, chunkYield_step meta hlt]
    exact congrArg _ (ih ⟨c.entities, c.fetch, c.position + 1, c.len⟩ (by simp only; omega))

theorem batchDrain_eq_chunkYield (meta : List Nat) (c : ChunkIter)
    (h : c.position ≤ c.len) : batchDrain meta c = chunkYield meta c := by
  rw [batchDrain]
  exact batchDrainGo_eq_chunkYield meta (c.len - c.position) c (by omega)

theorem chunkYield_length (meta : List Nat) (c : ChunkIter) :
    (chunkYield meta c).length = c.len - c.position := by
  simp [chunkYield]

/-- Concatenating the yields of the expected batches of one archetype, from
batch counter `b` on, gives exactly the rows from `bs * b` up to `len`. -/
theorem expBatchesFrom_join (q : Query) (bs : Nat) (hk : 1 ≤ bs) (meta : List Nat)
    (a : Archetype) (fv : Fetch) :
    ∀ (m b : Nat), a.len - bs * b ≤ m →
      (((expBatchesFrom q bs a fv b).map (batchDrain meta)).flatten)
        = (List.range (a.len - bs * b)).map
            (fun j => (mkEntity meta (a.entities.getD (bs * b + j) 0),
              fetchGet fv (bs * b + j))) := by
  intro m
  induction m with
  | zero =>
    intro b hm
    have hle : a.len ≤ bs * b := by omega
    rw [expBatchesFrom_stop q bs a fv b (numBatches_le bs b a.len hk hle),
      Nat.sub_eq_zero_of_le hle]
    rfl
  | succ m ih =>
    intro b hm
    rcases Nat.lt_or_ge (bs * b) a.len with hlt | hge
    · have hmul : bs * (b + 1) = bs * b + bs := Nat.mul_succ bs b
      rw [expBatchesFrom_step q bs a fv b (lt_numBatches bs b a.len hk hlt),
        List.map_cons, List.flatten_cons, ih (b + 1) (by omega)]
      have hbd : batchDrain meta ⟨a.entities, fv, bs * b, bs * b + min bs (a.len - bs * b)⟩
          = (List.range (min bs (a.len - bs * b))).map
              (fun j => (mkEntity meta (a.entities.getD (bs * b + j) 0),
                fetchGet fv (bs * b + j))) := by
        rw [batchDrain_eq_chunkYield meta _ (by simp only; omega)]
        simp [chunkYield]
      rw [hbd]
      have hsplit : a.len - bs * b = min bs (a.len - bs * b) + (a.len - bs * (b + 1)) := by
        omega
      conv_rhs => rw [hsplit]
      rw [List.range_add, List.map_append, List.map_map]
      congr 1
      apply List.map_congr_left
      intro j hj
      simp only [List.mem_range] at hj
      have hmin : min bs (a.len - bs * b) = bs := by omega
      have harg : bs * b + (min bs (a.len - bs * b) + j) = bs * (b + 1) + j := by omega
      simp [Function.comp, harg]
    · rw [expBatchesFrom_stop q bs a fv b (numBatches_le bs b a.len hk hge),
        Nat.sub_eq_zero_of_le hge]
      rfl

/-- Concatenating the yields of the expected batches of one archetype gives
exactly what plain iteration yields on it. -/
theorem expBatches_join (q : Query) (bs : Nat) (hk : 1 ≤ bs) (meta : List Nat)
    (a : Archetype) :
    ((expBatches q bs a).map (batchDrain meta)).flatten = archYield q meta a := by
  cases hnew : fetchNew q a with
  | none => rw [show expBatches q bs a = [] by rw [expBatches, hnew], archYield, hnew]; rfl
  | some fv =>
    rw [← expBatchesFrom_zero q bs hnew,
      expBatchesFrom_join q bs hk meta a fv a.len 0 (by omega), archYield, hnew]
    simp

theorem batchSizes_zero (k : Nat) : batchSizes k 0 = [] := by
  rw [batchSizes]
  cases k with
  | zero => rfl
  | succ k =>
    rw [show (0 + (k + 1) - 1) / (k + 1) = 0 from Nat.div_eq_of_lt (by omega)]
    rfl

theorem batchSizes_one (k l : Nat) (_hk : 1 ≤ k) (h0 : 0 < l) (hle : l ≤ k) :
    batchSizes k l = [l] := by
  rw [batchSizes, show (l + k - 1) / k = 1 from
    Nat.div_eq_of_lt_le (by omega) (by omega)]
  have : List.range 1 = [0] := rfl
  rw [this, List.map_cons, List.map_nil]
  congr 1
  omega

theorem batchSizes_step (k l : Nat) (hk : 1 ≤ k) (h : k < l) :
    batchSizes k l = k :: batchSizes k (l - k) := by
  have hsum : l + k - 1 = ((l - k) + k - 1) + k := by omega
  rw [batchSizes, hsum, Nat.add_div_right _ (by omega), List.range_succ_eq_map,
    List.map_cons, List.map_map]
  rw [show min k (l - k * 0) = k by omega]
  rw [batchSizes]
  congr 1
  apply List.map_congr_left
  intro i _
  have hmul : k * Nat.succ i = k * i + k := Nat.mul_succ k i
  have : l - k * Nat.succ i = l - k - k * i := by omega
  simp [Function.comp, this]

theorem batchSizes_ne_nil (k l : Nat) (hk : 1 ≤ k) (h0 : 0 < l) :
    batchSizes k l ≠ [] := by
  rcases le_or_lt l k with hle | hlt
  · rw [batchSizes_one k l hk h0 hle]
    simp
  · rw [batchSizes_step k l hk hlt]
    simp

theorem batchSizes_dropLast (k : Nat) (hk : 1 ≤ k) :
    ∀ l, ∀ x ∈ (batchSizes k l).dropLast, x = k := by
  intro l
  induction l using Nat.strong_induction_on with
  | _ l ih =>
    rcases Nat.eq_zero_or_pos l with rfl | h0
    · rw [batchSizes_zero]
      intro x hx
      simp at hx
    rcases le_or_lt l k with hle | hlt
    · rw [batchSizes_one k l hk h0 hle]
      intro x hx
      simp at hx
    · rw [batchSizes_step k l hk hlt,
        List.dropLast_cons_of_ne_nil (batchSizes_ne_nil k (l - k) hk (by omega))]
      intro x hx
      rcases List.mem_cons.mp hx with rfl | hx'
      · rfl
      · exact ih (l - k) (by omega) x hx'

theorem batchSizes_sum (k : Nat) (hk : 1 ≤ k) :
    ∀ l, (batchSizes k l).sum = l := by
  intro l
  induction l using Nat.strong_induction_on with
  | _ l ih =>
    rcases Nat.eq_zero_or_pos l with rfl | h0
    · rw [batchSizes_zero]
      rfl
    rcases le_or_lt l k with hle | hlt
    · rw [batchSizes_one k l hk h0 hle]
      simp
    · rw [batchSizes_step k l hk hlt, List.sum_cons, ih (l - k) (by omega)]
      omega

theorem expBatches_pos_le (q : Query) (bs : Nat) (a : Archetype) :
    ∀ c ∈ expBatches q bs a, c.position ≤ c.len := by
  intro c hc
  cases hnew : fetchNew q a with
  | none => rw [expBatches, hnew] at hc; simp at hc
  | some fv =>
    rw [expBatches, hnew] at hc
    obtain ⟨i, _, rfl⟩ := List.mem_map.mp hc
    simp

theorem expBatches_sizes (q : Query) (bs : Nat) {a : Archetype} {fv : Fetch}
    (hnew : fetchNew q a = some fv) :
    (expBatches q bs a).map (fun c => c.len - c.position) = batchSizes bs a.len := by
  rw [expBatches, hnew, batchSizes, List.map_map]
  apply List.map_congr_left
  intro i _
  simp

theorem expBatches_yield_lengths (q : Query) (bs : Nat) (meta : List Nat)
    (a : Archetype) :
    (expBatches q bs a).map (fun c => (batchDrain meta c).length)
      = (expBatches q bs a).map (fun c => c.len - c.position) := by
  apply List.map_congr_left
  intro c hc
  rw [batchDrain_eq_chunkYield meta c (expBatches_pos_le q bs a c hc),
    chunkYield_length]

theorem sizes_flatten (q : Query) (k : Nat) (meta : List Nat) :
    ∀ archs : List Archetype,
      ((archs.map (fun a => (expBatches q k a).map
          (fun c => (batchDrain meta c).length))).flatten)
        = ((archs.filter (fun a => (fetchNew q a).isSome)).map
            (fun a => batchSizes k a.len)).flatten := by
  intro archs
  induction archs with
  | nil => rfl
  | cons a rest ih =>
    rw [List.map_cons, List.flatten_cons, List.filter_cons]
    cases hnew : fetchNew q a with
    | none =>
      rw [show expBatches q k a = [] by rw [expBatches, hnew]]
      simpa [hnew] using ih
    | some fv =>
      rw [expBatches_yield_lengths q k meta a, expBatches_sizes q k hnew]
      simpa [hnew] using congrArg (batchSizes k a.len ++ ·) ih

/-- C3.  For every query, world and batch size `k >= 1`: concatenating the
yields of all batches from `iter_batched(k)`, in emission order, gives
exactly the same `(Entity, item)` sequence as `iter()`; the lengths of the
batch yields are, per applicable archetype, the `batchSizes` partition, whose
entries all equal `k` except possibly the last of each archetype, and which
sums to the archetype's row count (so the last batch yields the
remainder). -/
theorem iter_batched_partition (q : Query) (w : World) (k : Nat) (hk : 1 ≤ k) :
    ((batchedList q k w).map (batchDrain w.meta)).flatten = queryIterList q w
    ∧ (batchedList q k w).map (fun c => (batchDrain w.meta c).length)
        = ((w.archetypes.filter (fun a => (fetchNew q a).isSome)).map
            (fun a => batchSizes k a.len)).flatten
    ∧ (∀ l, ∀ x ∈ (batchSizes k l).dropLast, x = k)
    ∧ (∀ l, (batchSizes k l).sum = l) := by
  refine ⟨?_, ?_, batchSizes_dropLast k hk, batchSizes_sum k hk⟩
  · rw [batchedList_eq q k w hk, queryIterList_eq, iterSpec, List.map_flatten,
      List.map_map, List.flatten_flatten, List.map_map]
    congr 1
    apply List.map_congr_left
    intro a _
    exact expBatches_join q k hk w.meta a
  · rw [batchedList_eq q k w hk, List.map_flatten, List.map_map]
    exact sizes_flatten q k w.meta w.archetypes

/-- C10.  For every descriptor in the algebra (leaf read/write, optional,
with/without, tuples) and every archetype, `access` answers `Some` exactly
when `new` does, so the applicability test used by `len` agrees with the one
used by iteration. -/
theorem access_new_agree (q : Query) (a : Archetype) :
    (fetchAccess q a).isSome = (fetchNew q a).isSome :=
  fetchAccess_isSome q a

/-- C4.  Transforming a borrow with `with::<T>` (resp. `without::<T>`) gives
the very handle a direct `query::<With<T, Q>>()` (resp.
`query::<Without<T, Q>>()`) constructs — in particular it yields the same
sequence of entities and items. -/
theorem transform_equivalence (t : Nat) (q : Query) (w : World) :
    (qbWith t (QueryBorrow.mk' q w)).1 = QueryBorrow.mk' (.wth t q) w
    ∧ qbIterList (qbWith t (QueryBorrow.mk' q w)).1 = queryIterList (.wth t q) w
    ∧ (qbWithout t (QueryBorrow.mk' q w)).1 = QueryBorrow.mk' (.without t q) w
    ∧ qbIterList (qbWithout t (QueryBorrow.mk' q w)).1
        = queryIterList (.without t q) w :=
  ⟨rfl, rfl, rfl, rfl⟩

theorem fetchAccessFold_all_some (a : Archetype) :
    ∀ (qs : List Query) (acc : Access),
      (∀ p ∈ qs, (fetchAccess p a).isSome = true) →
      fetchAccessFold qs a acc
        = some (qs.foldl (fun x p => Access.max x ((fetchAccess p a).getD .iterate)) acc) := by
  intro qs
  induction qs with
  | nil => intro acc _; rfl
  | cons p rest ih =>
    intro acc hall
    obtain ⟨x, hx⟩ := Option.isSome_iff_exists.mp (hall p (List.mem_cons_self p rest))
    rw [fetchAccessFold, hx, List.foldl_cons, hx]
    exact ih (Access.max acc x) (fun r hr => hall r (List.mem_cons_of_mem p hr))

theorem fetchAccessFold_none (a : Archetype) :
    ∀ (qs : List Query) (acc : Access),
      (∃ p ∈ qs, fetchAccess p a = none) →
      fetchAccessFold qs a acc = none := by
  intro qs
  induction qs with
  | nil => intro acc h; simp at h
  | cons p rest ih =>
    intro acc h
    cases hx : fetchAccess p a with
    | none => rw [fetchAccessFold, hx]
    | some x =>
      rw [fetchAccessFold, hx]
      obtain ⟨r, hr, hnone⟩ := h
      rcases List.mem_cons.mp hr with rfl | hr'
      · rw [hx] at hnone; cases hnone
      · exact ih (Access.max acc x) ⟨r, hr', hnone⟩

/-- C6.  Tuple composition on the access lattice: if every member matches the
archetype the tuple's access is `Some` of the max-fold of the members'
accesses (started at `Iterate`); if any member answers `None` the tuple
answers `None`; the empty tuple answers `Some(Iterate)` on every archetype;
and the derived `Option<Access>` order used to gate borrowing satisfies
`None < Some(Iterate) < Some(Read) < Some(Write)`. -/
theorem tuple_access_lattice (qs : List Query) (a : Archetype) :
    ((∀ p ∈ qs, (fetchAccess p a).isSome = true) →
      fetchAccess (.tuple qs) a = some (maxAccess qs a))
    ∧ ((∃ p ∈ qs, fetchAccess p a = none) → fetchAccess (.tuple qs) a = none)
    ∧ fetchAccess (.tuple []) a = some .iterate
    ∧ optAccessLt none (some .iterate) = true
    ∧ optAccessLt (some .iterate) (some .read) = true
    ∧ optAccessLt (some .read) (some .write) = true := by
  refine ⟨?_, ?_, rfl, rfl, rfl, rfl⟩
  · intro hall
    rw [fetchAccess, maxAccess]
    exact fetchAccessFold_all_some a qs .iterate hall
  · intro hnone
    rw [fetchAccess]
    exact fetchAccessFold_none a qs .iterate hnone

/-- C6 (witness): on a two-row archetype carrying component 0, the tuple
`(&T0, &mut T0)` composes to `Some(Write)` and the tuple `(&T0, &T1)` (with
component 1 absent) is not applicable. -/
theorem tuple_access_lattice_witness :
    fetchAccess (.tuple [.read 0, .write 0]) arch1 = some .write
    ∧ fetchAccess (.tuple [.read 0, .read 1]) arch1 = none :=
  ⟨((tuple_access_lattice [.read 0, .write 0] arch1).1 (by decide)).trans (by rfl),
   (tuple_access_lattice [.read 0, .read 1] arch1).2.1 (by decide)⟩

mutual
/-- A descriptor's `release` performs the same column operations as its
`borrow`: shared for leaf reads, exclusive for leaf writes, recursing into
all members of composites. -/
theorem releaseOps_eq (q : Query) : releaseOps q = borrowOps q :=
  match q with
  | .read _ => rfl
  | .write _ => rfl
  | .opt p => by rw [releaseOps, borrowOps]; exact releaseOps_eq p
  | .wth _ p => by rw [releaseOps, borrowOps]; exact releaseOps_eq p
  | .without _ p => by rw [releaseOps, borrowOps]; exact releaseOps_eq p
  | .tuple qs => by rw [releaseOps, borrowOps]; exact releaseOpsList_eq qs
/-- Member-wise version of `releaseOps_eq`. -/
theorem releaseOpsList_eq (qs : List Query) : releaseOpsList qs = borrowOpsList qs :=
  match qs with
  | [] => rfl
  | p :: rest => by
    rw [releaseOpsList, borrowOpsList, releaseOps_eq p, releaseOpsList_eq rest]
end

theorem archAcquire_ok_trace :
    ∀ (ops : List Op) (s : ArchBorrows),
      (archAcquire ops s).2.2 = true → (archAcquire ops s).2.1 = ops := by
  intro ops
  induction ops with
  | nil => intro s _; rfl
  | cons op rest ih =>
    intro s hok
    cases hap : archApplyOp s op with
    | none => rw [archAcquire, hap] at hok ⊢; cases hok
    | some s' =>
      rw [archAcquire, hap] at hok ⊢
      simp only at hok ⊢
      rw [ih s' hok]

theorem qbWalk_nil (q : Query) : qbWalk q [] = ([], [], true) := rfl

theorem qbWalk_cons_gate_ok {q : Query} {a : Archetype} {s : ArchBorrows}
    (rest : List (Archetype × ArchBorrows)) (hg : accessGate q a = true)
    (haq : (archAcquire (borrowOps q) s).2.2 = true) :
    qbWalk q ((a, s) :: rest)
      = ((archAcquire (borrowOps q) s).1 :: (qbWalk q rest).1,
          (archAcquire (borrowOps q) s).2.1.map (fun op => (a, op))
            ++ (qbWalk q rest).2.1,
          (qbWalk q rest).2.2) := by
  rw [qbWalk]
  simp [hg, haq]

theorem qbWalk_cons_gate_fail {q : Query} {a : Archetype} {s : ArchBorrows}
    (rest : List (Archetype × ArchBorrows)) (hg : accessGate q a = true)
    (haq : (archAcquire (borrowOps q) s).2.2 = false) :
    qbWalk q ((a, s) :: rest)
      = ((archAcquire (borrowOps q) s).1 :: rest.map Prod.snd,
          (archAcquire (borrowOps q) s).2.1.map (fun op => (a, op)),
          false) := by
  rw [qbWalk]
  simp [hg, haq]

theorem qbWalk_cons_nogate {q : Query} {a : Archetype} {s : ArchBorrows}
    (rest : List (Archetype × ArchBorrows)) (hg : accessGate q a = false) :
    qbWalk q ((a, s) :: rest)
      = (s :: (qbWalk q rest).1, (qbWalk q rest).2.1, (qbWalk q rest).2.2) := by
  rw [qbWalk]
  simp [hg]

theorem walkTrace_nil (q : Query) (ops : List Op) : walkTrace q [] ops = [] := rfl

theorem walkTrace_cons_gate {q : Query} {a : Archetype} (archs : List Archetype)
    (ops : List Op) (hg : accessGate q a = true) :
    walkTrace q (a :: archs) ops
      = ops.map (fun op => (a, op)) ++ walkTrace q archs ops := by
  rw [walkTrace, walkTrace, List.filter_cons, if_pos (by simp [hg]), List.map_cons,
    List.flatten_cons]

theorem walkTrace_cons_nogate {q : Query} {a : Archetype} (archs : List Archetype)
    (ops : List Op) (hg : accessGate q a = false) :
    walkTrace q (a :: archs) ops = walkTrace q archs ops := by
  rw [walkTrace, walkTrace, List.filter_cons, if_neg (by simp [hg])]

theorem qbWalk_ok_trace (q : Query) :
    ∀ (l : List (Archetype × ArchBorrows)),
      (qbWalk q l).2.2 = true →
      (qbWalk q l).2.1 = walkTrace q (l.map Prod.fst) (borrowOps q) := by
  intro l
  induction l with
  | nil => intro _; rfl
  | cons p rest ih =>
    obtain ⟨a, s⟩ := p
    intro hok
    by_cases hg : accessGate q a
    · cases haq : (archAcquire (borrowOps q) s).2.2 with
      | false => rw [qbWalk_cons_gate_fail rest hg haq] at hok; cases hok
      | true =>
        rw [qbWalk_cons_gate_ok rest hg haq] at hok ⊢
        simp only at hok ⊢
        rw [ih hok, archAcquire_ok_trace (borrowOps q) s haq, List.map_cons,
          walkTrace_cons_gate _ _ hg]
    · have hg' : accessGate q a = false := by simpa using hg
      rw [qbWalk_cons_nogate rest hg'] at hok ⊢
      simp only at hok ⊢
      rw [ih hok, List.map_cons, walkTrace_cons_nogate _ _ hg']

theorem qbReleaseWalk_nil (q : Query) : qbReleaseWalk q [] = ([], []) := rfl

theorem qbReleaseWalk_cons_gate {q : Query} {a : Archetype} {s : ArchBorrows}
    (rest : List (Archetype × ArchBorrows)) (hg : accessGate q a = true) :
    qbReleaseWalk q ((a, s) :: rest)
      = (archDoRelease (releaseOps q) s :: (qbReleaseWalk q rest).1,
          (releaseOps q).map (fun op => (a, op)) ++ (qbReleaseWalk q rest).2) := by
  rw [qbReleaseWalk]
  simp [hg]

theorem qbReleaseWalk_cons_nogate {q : Query} {a : Archetype} {s : ArchBorrows}
    (rest : List (Archetype × ArchBorrows)) (hg : accessGate q a = false) :
    qbReleaseWalk q ((a, s) :: rest)
      = (s :: (qbReleaseWalk q rest).1, (qbReleaseWalk q rest).2) := by
  rw [qbReleaseWalk]
  simp [hg]

theorem qbReleaseWalk_trace (q : Query) :
    ∀ (l : List (Archetype × ArchBorrows)),
      (qbReleaseWalk q l).2 = walkTrace q (l.map Prod.fst) (releaseOps q) := by
  intro l
  induction l with
  | nil => rfl
  | cons p rest ih =>
    obtain ⟨a, s⟩ := p
    by_cases hg : accessGate q a
    · rw [qbReleaseWalk_cons_gate rest hg]
      simp only
      rw [ih, List.map_cons, walkTrace_cons_gate _ _ hg]
    · have hg' : accessGate q a = false := by simpa using hg
      rw [qbReleaseWalk_cons_nogate rest hg']
      simp only
      rw [ih, List.map_cons, walkTrace_cons_nogate _ _ hg']

/-- C5.  A `QueryBorrow` acquires dynamic borrows at most once.  A successful
`iter()`/`iter_batched()` invokes `Fetch::borrow` on exactly the archetypes
whose access is at least `Some(Read)` (one `borrowOps` block each, in order);
leaf reads borrow shared, leaf writes exclusive; destruction of the borrowed
handle invokes `Fetch::release` on exactly the same archetypes with the same
operations (releaseOps = borrowOps); a second iteration panics without
acquiring anything; a handle that was never iterated, or that was neutralized
by a transform, releases nothing on destruction. -/
theorem borrow_release_discipline (qb : QueryBorrow) (sts sts2 : List ArchBorrows)
    (hb : qb.borrowed = false) (hlen : sts.length = qb.archetypes.length)
    (hlen2 : sts2.length = qb.archetypes.length) :
    ((qbBorrow qb sts).failMsg = none →
      ((qbBorrow qb sts).trace = walkTrace qb.q qb.archetypes (borrowOps qb.q)
      ∧ (qbBorrow qb sts).handle.borrowed = true
      ∧ (qbDrop (qbBorrow qb sts).handle sts2).2
          = walkTrace qb.q qb.archetypes (borrowOps qb.q)
      ∧ (qbBorrow (qbBorrow qb sts).handle sts2).failMsg = some doubleIterMsg
      ∧ (qbBorrow (qbBorrow qb sts).handle sts2).trace = []
      ∧ (qbBorrow (qbBorrow qb sts).handle sts2).states = sts2))
    ∧ (∀ t, borrowOps (.read t) = [.shared t] ∧ borrowOps (.write t) = [.excl t])
    ∧ releaseOps qb.q = borrowOps qb.q
    ∧ qbDrop qb sts = (sts, [])
    ∧ (∀ r, (qbTransform r qb).2.borrowed = false
        ∧ qbDrop (qbTransform r qb).2 sts = (sts, [])) := by
  have hfst : (qb.archetypes.zip sts).map Prod.fst = qb.archetypes :=
    List.map_fst_zip qb.archetypes sts (by omega)
  have hfst2 : (qb.archetypes.zip sts2).map Prod.fst = qb.archetypes :=
    List.map_fst_zip qb.archetypes sts2 (by omega)
  refine ⟨?_, fun t => ⟨rfl, rfl⟩, releaseOps_eq qb.q, ?_, ?_⟩
  · intro hnone
    cases hok : (qbWalk qb.q (qb.archetypes.zip sts)).2.2 with
    | false =>
      rw [qbBorrow] at hnone
      simp [hb, hok] at hnone
    | true =>
      have houtcome : qbBorrow qb sts
          = ⟨⟨qb.meta, qb.archetypes, true, qb.q⟩,
              (qbWalk qb.q (qb.archetypes.zip sts)).1,
              (qbWalk qb.q (qb.archetypes.zip sts)).2.1, none⟩ := by
        rw [qbBorrow]
        simp [hb, hok]
      rw [houtcome]
      refine ⟨?_, rfl, ?_, rfl, rfl, rfl⟩
      · rw [qbWalk_ok_trace qb.q _ hok, hfst]
      · show (qbDrop ⟨qb.meta, qb.archetypes, true, qb.q⟩ sts2).2 = _
        rw [qbDrop]
        simp only [if_true]
        rw [qbReleaseWalk_trace qb.q, hfst2, releaseOps_eq qb.q]
  · rw [qbDrop, hb]
    rfl
  · intro r
    exact ⟨rfl, by rw [qbDrop]; rfl⟩

/-- C5 (witness): on a single-archetype world queried with a leaf read, the
borrow walk's trace is the expected single shared borrow. -/
theorem borrow_release_discipline_witness :
    (qbBorrow (QueryBorrow.mk' (.read 0) world1) [ArchBorrows.free]).trace
      = walkTrace (.read 0) [arch1] (borrowOps (.read 0)) := by
  have h := borrow_release_discipline (QueryBorrow.mk' (.read 0) world1)
    [ArchBorrows.free] [ArchBorrows.free] rfl rfl rfl
  exact (h.1 rfl).1

theorem qbWalk_fail_decomp (q : Query) :
    ∀ (l : List (Archetype × ArchBorrows)),
      (qbWalk q l).2.2 = false →
      ∃ pre p suf,
        l = pre ++ p :: suf
        ∧ (qbWalk q pre).2.2 = true
        ∧ accessGate q p.1 = true
        ∧ (archAcquire (borrowOps q) p.2).2.2 = false
        ∧ (qbWalk q l).1
            = (qbWalk q pre).1
              ++ (archAcquire (borrowOps q) p.2).1 :: suf.map Prod.snd := by
  intro l
  induction l with
  | nil => intro h; cases h
  | cons p rest ih =>
    obtain ⟨a, s⟩ := p
    intro hfail
    by_cases hg : accessGate q a
    · cases haq : (archAcquire (borrowOps q) s).2.2 with
      | false =>
        refine ⟨[], (a, s), rest, rfl, rfl, hg, haq, ?_⟩
        rw [qbWalk_cons_gate_fail rest hg haq, qbWalk_nil]
        rfl
      | true =>
        have hfail' : (qbWalk q rest).2.2 = false := by
          have := congrArg (fun r => r.2.2) (qbWalk_cons_gate_ok rest hg haq)
          simp only at this
          rw [this] at hfail
          exact hfail
        obtain ⟨pre, pp, suf, hsplit, hpre, hgate, hfailp, hstates⟩ := ih hfail'
        refine ⟨(a, s) :: pre, pp, suf, by rw [hsplit, List.cons_append], ?_, hgate, hfailp, ?_⟩
        · rw [qbWalk_cons_gate_ok pre hg haq]
          exact hpre
        · rw [qbWalk_cons_gate_ok rest hg haq, qbWalk_cons_gate_ok pre hg haq]
          simp only
          rw [hstates, List.cons_append]
    · have hg' : accessGate q a = false := by simpa using hg
      have hfail' : (qbWalk q rest).2.2 = false := by
        have := congrArg (fun r => r.2.2) (qbWalk_cons_nogate (s := s) rest hg')
        simp only at this
        rw [this] at hfail
        exact hfail
      obtain ⟨pre, pp, suf, hsplit, hpre, hgate, hfailp, hstates⟩ := ih hfail'
      refine ⟨(a, s) :: pre, pp, suf, by rw [hsplit, List.cons_append], ?_, hgate, hfailp, ?_⟩
      · rw [qbWalk_cons_nogate pre hg']
        exact hpre
      · rw [qbWalk_cons_nogate rest hg', qbWalk_cons_nogate pre hg']
        simp only
        rw [hstates, List.cons_append]

/-- C9.  When acquiring borrows panics on some archetype (borrow conflict),
nothing is rolled back: the walk's resulting states keep every earlier gated
archetype fully acquired and the failing archetype partially acquired, later
archetypes untouched; the `borrowed` flag — set only after the whole walk —
stays `false`, so the handle's destructor performs no releases at all. -/
theorem borrow_conflict_no_rollback (qb : QueryBorrow) (sts : List ArchBorrows)
    (hb : qb.borrowed = false)
    (hfail : (qbBorrow qb sts).failMsg = some borrowRefusedMsg) :
    (qbBorrow qb sts).handle = qb
    ∧ (qbBorrow qb sts).handle.borrowed = false
    ∧ (∀ sts2, qbDrop (qbBorrow qb sts).handle sts2 = (sts2, []))
    ∧ ∃ pre p suf,
        qb.archetypes.zip sts = pre ++ p :: suf
        ∧ (qbWalk qb.q pre).2.2 = true
        ∧ accessGate qb.q p.1 = true
        ∧ (archAcquire (borrowOps qb.q) p.2).2.2 = false
        ∧ (qbBorrow qb sts).states
            = (qbWalk qb.q pre).1
              ++ (archAcquire (borrowOps qb.q) p.2).1 :: suf.map Prod.snd := by
  cases hok : (qbWalk qb.q (qb.archetypes.zip sts)).2.2 with
  | true =>
    rw [qbBorrow] at hfail
    simp [hb, hok] at hfail
  | false =>
    have houtcome : qbBorrow qb sts
        = ⟨qb, (qbWalk qb.q (qb.archetypes.zip sts)).1,
            (qbWalk qb.q (qb.archetypes.zip sts)).2.1, some borrowRefusedMsg⟩ := by
      rw [qbBorrow]
      simp [hb, hok]
    rw [houtcome]
    refine ⟨rfl, hb, ?_, ?_⟩
    · intro sts2
      rw [qbDrop, hb]
      rfl
    · exact qbWalk_fail_decomp qb.q (qb.archetypes.zip sts) hok

/-- C9 (witness): the self-conflicting query `(&T0, &mut T0)` fails during the
borrow walk; the handle keeps `borrowed = false` and its destructor releases
nothing. -/
theorem borrow_conflict_no_rollback_witness :
    (qbBorrow (QueryBorrow.mk' (.tuple [.read 0, .write 0]) world1)
        [ArchBorrows.free]).handle
      = QueryBorrow.mk' (.tuple [.read 0, .write 0]) world1
    ∧ (∀ sts2, qbDrop (qbBorrow (QueryBorrow.mk' (.tuple [.read 0, .write 0]) world1)
        [ArchBorrows.free]).handle sts2 = (sts2, [])) := by
  have h := borrow_conflict_no_rollback
    (QueryBorrow.mk' (.tuple [.read 0, .write 0]) world1) [ArchBorrows.free] rfl rfl
  exact ⟨h.1, h.2.2.1⟩

/-- C7 (counterexample).  A second `iter()` on a borrowed handle does panic,
but the diagnostic is the fixed string of `src/query.rs` lines 332-334, which
is not "query iterated twice". -/
theorem double_iter_msg_cex :
    (qbIter ⟨world1.meta, world1.archetypes, true, .read 0⟩ []).1.failMsg.isSome = true
    ∧ (qbIter ⟨world1.meta, world1.archetypes, true, .read 0⟩ []).1.failMsg
        ≠ some "query iterated twice" :=
  ⟨rfl, by decide⟩

/-- C7 (amended).  Calling `iter()` or `iter_batched()` on a handle that is
already borrowed panics with the stable diagnostic "called QueryBorrow::iter
twice on the same borrow; construct a new query instead" (not "query iterated
twice"); the handle, its borrow states and its `borrowed` flag are left
untouched, so the first call's borrows remain in force until the handle is
destructed. -/
theorem double_iter_panics (qb : QueryBorrow) (sts sts2 : List ArchBorrows)
    (bs : Nat) (h : qb.borrowed = true) :
    (qbIter qb sts).1.failMsg = some doubleIterMsg
    ∧ (qbIterBatched qb bs sts2).1.failMsg = some doubleIterMsg
    ∧ (qbIter qb sts).1.handle = qb
    ∧ (qbIter qb sts).1.states = sts
    ∧ (qbIter qb sts).1.trace = []
    ∧ (qbIter qb sts).1.handle.borrowed = true := by
  refine ⟨?_, ?_, ?_, ?_, ?_, ?_⟩ <;> simp [qbIter, qbIterBatched, qbBorrow, h]

/-- C7 (witness): the amended statement evaluated on a concrete borrowed
handle. -/
theorem double_iter_panics_witness :
    (QueryBorrow.mk world1.meta world1.archetypes true (.read 0)).borrowed = true
    ∧ ((qbIter (QueryBorrow.mk world1.meta world1.archetypes true (.read 0)) []).1.failMsg
          = some doubleIterMsg
      ∧ (qbIterBatched (QueryBorrow.mk world1.meta world1.archetypes true (.read 0)) 3 []).1.failMsg
          = some doubleIterMsg
      ∧ (qbIter (QueryBorrow.mk world1.meta world1.archetypes true (.read 0)) []).1.handle
          = QueryBorrow.mk world1.meta world1.archetypes true (.read 0)
      ∧ (qbIter (QueryBorrow.mk world1.meta world1.archetypes true (.read 0)) []).1.states = []
      ∧ (qbIter (QueryBorrow.mk world1.meta world1.archetypes true (.read 0)) []).1.trace = []
      ∧ (qbIter (QueryBorrow.mk world1.meta world1.archetypes true (.read 0)) []).1.handle.borrowed
          = true) :=
  ⟨rfl, double_iter_panics (QueryBorrow.mk world1.meta world1.archetypes true (.read 0)) [] [] 3 rfl⟩

/-- C8 (counterexample).  `iter_batched(0)` on a world with one non-empty
applicable archetype of two rows: five calls to `BatchedIter::next` emit five
batches, all of which yield nothing, and a sixth batch is still pending — the
call is neither rejected nor treated as a single row, and the stream of
batches never ends. -/
theorem iter_batched_zero_cex :
    (biDrain (.read 0) 0 5 world1.archetypes 0).length = 5
    ∧ ((biDrain (.read 0) 0 5 world1.archetypes 0).map (batchDrain world1.meta)).flatten = []
    ∧ (biNext (.read 0) 0 world1.archetypes 5).isSome = true :=
  ⟨rfl, rfl, rfl⟩

/-- C8 (amended).  `iter_batched` with `batch_size = 0` loops forever: on any
archetype list whose head is non-empty and applicable, every call to
`BatchedIter::next` — whatever the batch counter — emits yet another batch
covering the empty row range `[0, 0)` (which yields no pairs) and leaves the
archetype cursor in place, so the stream of empty batches is endless. -/
theorem iter_batched_zero_endless (q : Query) (a : Archetype)
    (rest : List Archetype) (fv : Fetch) (meta : List Nat) (n : Nat)
    (h0 : 0 < a.len) (hnew : fetchNew q a = some fv) :
    biNext q 0 (a :: rest) n = some (⟨a.entities, fv, 0, 0⟩, (a :: rest, n + 1))
    ∧ batchDrain meta ⟨a.entities, fv, 0, 0⟩ = [] := by
  constructor
  · have h := biNext_emit q 0 n rest (show 0 * n < a.len by simpa using h0) hnew
    simpa using h
  · rfl

/-- C8 (witness): the endless-empty-batch behavior at batch counter 7 on a
two-row archetype. -/
theorem iter_batched_zero_endless_witness :
    0 < arch1.len
    ∧ fetchNew (.read 0) arch1 = some (.read [10, 20])
    ∧ (biNext (.read 0) 0 [arch1] 7
          = some (⟨arch1.entities, .read [10, 20], 0, 0⟩, ([arch1], 8))
      ∧ batchDrain [9, 8] ⟨arch1.entities, .read [10, 20], 0, 0⟩ = []) :=
  ⟨by decide, rfl,
    iter_batched_zero_endless (.read 0) arch1 [] (.read [10, 20]) [9, 8] 7 (by decide) rfl⟩

/-- C3 (witness): the partition law evaluated on a five-row archetype with
batch size 2 (batches of sizes 2, 2, 1). -/
theorem iter_batched_partition_witness :
    1 ≤ 2
    ∧ (((batchedList (.read 0) 2 world5).map (batchDrain world5.meta)).flatten
          = queryIterList (.read 0) world5
      ∧ (batchedList (.read 0) 2 world5).map
            (fun c => (batchDrain world5.meta c).length)
          = ((world5.archetypes.filter
              (fun a => (fetchNew (.read 0) a).isSome)).map
              (fun a => batchSizes 2 a.len)).flatten
      ∧ (∀ l, ∀ x ∈ (batchSizes 2 l).dropLast, x = 2)
      ∧ (∀ l, (batchSizes 2 l).sum = l)) :=
  ⟨by decide, iter_batched_partition (.read 0) world5 2 (by decide)⟩

end Hecs
